import Mathlib

/-!
Shallow embedding of the adaptive World-Wars quiz application
(`src/app.py`): the append-only response log (`log_result`), the adaptive
selector (`train_adaptive_model`, `select_adaptive_difficulty`) and the
Streamlit session handlers (question fetch, submit, next-question, reset),
together with proofs of the specified properties.

Machine reals (sklearn probabilities) are modelled as `ℚ`; the fitted
sklearn pipeline is abstracted as a function from (topic, difficulty)
samples to `Option ℚ`, where `none` stands for a raised exception inside
the `try` block of `select_adaptive_difficulty`.
-/

/-- `MAX_QUESTIONS` (app.py line 18). -/
def MAX_QUESTIONS : Nat := 6

/-- One row of the log file `user_logs.csv`: columns
`topic, difficulty, answered_correct, choice, question_id`
(app.py lines 35 and 42-48). -/
structure ResponseRecord where
  topic : String
  difficulty : String
  answered_correct : Nat
  choice : Nat
  question_id : String
deriving DecidableEq

/-- Reading the whole log back (`pd.read_csv(LOG_FILE)`): the ordered
sequence of rows persisted so far. -/
def loadAll (l : List ResponseRecord) : List ResponseRecord := l

/-- `log_result` (app.py lines 40-49): read the log, concatenate a single
new row at the end, write the result back. -/
def log_result (l : List ResponseRecord) (r : ResponseRecord) : List ResponseRecord :=
  l ++ [r]

/-- A fitted pipeline as used by `select_adaptive_difficulty`: for one
(topic, difficulty) sample, the body of the `try` block (app.py lines
188-191, `enc.transform` followed by `model.predict_proba`) either returns
the predicted probability of a correct answer (`some p`) or raises
(`none`). -/
abbrev Model : Type := String → String → Option ℚ

/-- Number of distinct values of the `answered_correct` column
(pandas `nunique`, app.py line 162). -/
def nuniqueCorrect (l : List ResponseRecord) : Nat :=
  (l.map (fun r => r.answered_correct)).dedup.length

/-- `train_adaptive_model` (app.py lines 160-171), the
`OneHotEncoder`/`LogisticRegression` fitting step abstracted as the
parameter `fit` (total: sklearn `fit` returns normally on the two-class
data that reaches it; non-convergence only warns). -/
def train_adaptive_model (fit : List ResponseRecord → Model)
    (l : List ResponseRecord) : Option Model :=
  if l.length < 3 ∨ nuniqueCorrect l < 2 then none
  else some (fit l)

/-- `train_adaptive_model` again, with the fitting step allowed to raise
(`Except.error`). The source function contains no `try`/`except`, so a
raising fit propagates to the caller unchanged. -/
def train_adaptive_modelE (fitE : List ResponseRecord → Except String Model)
    (l : List ResponseRecord) : Except String (Option Model) :=
  if l.length < 3 ∨ nuniqueCorrect l < 2 then Except.ok none
  else (fitE l).map (fun m => some m)

/-- `topics` (app.py line 181). -/
def topics : List String := ["World War I", "World War II", "World Wars General"]

/-- `difficulties` (app.py line 182). -/
def difficulties : List String := ["Easy", "Medium", "Hard"]

/-- The nine (topic, difficulty) combinations in loop order: topics outer,
difficulties inner (app.py lines 185-186). -/
def combos : List (String × String) :=
  topics.flatMap (fun t => difficulties.map (fun d => (t, d)))

/-- The probability recorded for one combination: the `try`-block value,
or the neutral 0.5 when it raised (app.py lines 187-193). -/
def probOf (m : Model) (t d : String) : ℚ :=
  (m t d).getD (1 / 2)

/-- The `predictions` dict of `select_adaptive_difficulty` (app.py lines
183-193), as an association list in insertion order: key
`f"{topic}_{difficulty}"`, value the predicted probability. -/
def predictions (m : Model) : List (String × ℚ) :=
  topics.flatMap (fun t => difficulties.map (fun d => (t ++ "_" ++ d, probOf m t d)))

/-- Python `min(xs, key=...)` over a nonempty sequence (app.py line 196):
fold from the head, replacing the current best only on a strictly smaller
value, so the first minimum in iteration order wins. -/
def pyMin {α : Type} (h : α × ℚ) (t : List (α × ℚ)) : α × ℚ :=
  t.foldl (fun best p => if p.2 < best.2 then p else best) h

/-- Character-level split at the first underscore; `none` when the list
contains no underscore. -/
def splitCharsAtUnderscore : List Char → Option (List Char × List Char)
  | [] => none
  | c :: cs =>
    if c = '_' then some ([], cs)
    else (splitCharsAtUnderscore cs).map (fun p => (c :: p.1, p.2))

/-- `weakest_key.split("_", 1)` with two-name tuple unpacking (app.py line
197); `none` where the unpacking would raise (no underscore present). -/
def split_first_underscore (s : String) : Option (String × String) :=
  (splitCharsAtUnderscore s.toList).map (fun p => (String.mk p.1, String.mk p.2))

/-- `select_adaptive_difficulty` (app.py lines 176-199). A `none` model is
the null model (line 178); the result is `none` only where Python would
raise (`min` of an empty dict, or unpacking a key without an underscore),
branches the theorems show unreachable. -/
def select_adaptive_difficulty (model : Option Model) : Option (String × String) :=
  match model with
  | none => some ("World War I", "Easy")
  | some m =>
    match predictions m with
    | [] => none
    | p :: rest => split_first_underscore (pyMin p rest).1

/-- In a list of fewer than two elements all members are equal. -/
lemma all_eq_of_length_lt_two {α : Type} (ys : List α) (h : ys.length < 2) :
    ∀ a ∈ ys, ∀ b ∈ ys, a = b := by
  match ys with
  | [] => intro a ha; exact absurd ha (List.not_mem_nil a)
  | [y] =>
    intro a ha b hb
    rw [List.mem_singleton] at ha hb
    rw [ha, hb]
  | y :: z :: t => exact absurd h (by simp)

/-- A duplicate-free list whose members are pairwise equal has fewer than
two elements. -/
lemma length_lt_two_of_nodup {α : Type} (ys : List α) (hn : ys.Nodup)
    (h : ∀ a ∈ ys, ∀ b ∈ ys, a = b) : ys.length < 2 := by
  match ys with
  | [] => simp
  | [y] => simp
  | y :: z :: t =>
    exfalso
    have hyz : y = z := h y (by simp) z (by simp)
    rw [List.nodup_cons] at hn
    exact hn.1 (by simp [hyz])

/-- The `nunique < 2` guard of `train_adaptive_model` holds exactly when
all `answered_correct` outcomes in the log are equal. -/
lemma nunique_lt_two_iff (l : List ResponseRecord) :
    nuniqueCorrect l < 2 ↔
      ∀ r ∈ l, ∀ s ∈ l, r.answered_correct = s.answered_correct := by
  unfold nuniqueCorrect
  constructor
  · intro h r hr s hs
    exact all_eq_of_length_lt_two _ h _
      (List.mem_dedup.mpr (List.mem_map_of_mem _ hr)) _
      (List.mem_dedup.mpr (List.mem_map_of_mem _ hs))
  · intro h
    refine length_lt_two_of_nodup _ (List.nodup_dedup _) ?_
    intro a ha b hb
    obtain ⟨r, hr, hra⟩ := List.mem_map.mp (List.mem_dedup.mp ha)
    obtain ⟨s, hs, hsb⟩ := List.mem_map.mp (List.mem_dedup.mp hb)
    rw [← hra, ← hsb]
    exact h r hr s hs

/-- C1: a log with fewer than 3 records or all-equal outcomes trains to a
null model; `select_adaptive_difficulty` on the null model returns the
fixed default `("World War I", "Easy")`; conversely a log with at least 3
records and both outcome values present trains to a non-null model. -/
theorem c1_null_model_guard (fit : List ResponseRecord → Model)
    (l : List ResponseRecord) :
    ((l.length < 3 ∨ ∀ r ∈ l, ∀ s ∈ l, r.answered_correct = s.answered_correct) →
      train_adaptive_model fit l = none) ∧
    select_adaptive_difficulty none = some ("World War I", "Easy") ∧
    (3 ≤ l.length →
      (∃ r ∈ l, ∃ s ∈ l, r.answered_correct ≠ s.answered_correct) →
      ∃ m, train_adaptive_model fit l = some m) := by
  refine ⟨?_, rfl, ?_⟩
  · intro h
    unfold train_adaptive_model
    rw [if_pos]
    rcases h with h | h
    · exact Or.inl h
    · exact Or.inr ((nunique_lt_two_iff l).mpr h)
  · intro hlen hmix
    unfold train_adaptive_model
    rw [if_neg]
    · exact ⟨fit l, rfl⟩
    · rintro (h | h)
      · omega
      · obtain ⟨r, hr, s, hs, hne⟩ := hmix
        exact hne ((nunique_lt_two_iff l).mp h r hr s hs)

/-- A rigged fit result used to instantiate theorems at concrete inputs:
the constant predictor. -/
def constModel : Model := fun _ _ => some 1

/-- A concrete fitting function. -/
def constFit : List ResponseRecord → Model := fun _ => constModel

/-- The mixed-outcome three-record log of the spec scenario
`[(WWI, Easy, 1), (WWI, Easy, 0), (WWII, Hard, 1)]`. -/
def L0 : List ResponseRecord :=
  [⟨"World War I", "Easy", 1, 1, "q0"⟩,
   ⟨"World War I", "Easy", 0, 2, "q1"⟩,
   ⟨"World War II", "Hard", 1, 3, "q2"⟩]

/-- Witness for C1: the empty log trains to a null model, the null model
selects the fixed default, and the spec's three-record mixed log trains to
a non-null model. -/
theorem c1_witness :
    train_adaptive_model constFit [] = none ∧
    select_adaptive_difficulty none = some ("World War I", "Easy") ∧
    ∃ m, train_adaptive_model constFit L0 = some m := by
  refine ⟨(c1_null_model_guard constFit []).1 (Or.inl (by decide)),
    (c1_null_model_guard constFit []).2.1,
    (c1_null_model_guard constFit L0).2.2 (by decide) ?_⟩
  refine ⟨⟨"World War I", "Easy", 1, 1, "q0"⟩, by decide,
    ⟨"World War I", "Easy", 0, 2, "q1"⟩, by decide, by decide⟩

/-- Specification of the Python `min(xs, key=...)` fold: the result splits
the nonempty input into a strictly-greater prefix, itself, and a suffix,
and is less-or-equal to every element. -/
lemma pyMin_spec {α : Type} :
    ∀ (t : List (α × ℚ)) (h : α × ℚ),
      ∃ l₁ l₂, h :: t = l₁ ++ pyMin h t :: l₂ ∧
        (∀ p ∈ l₁, (pyMin h t).2 < p.2) ∧
        (∀ p ∈ h :: t, (pyMin h t).2 ≤ p.2) := by
  intro t
  induction t with
  | nil =>
    intro h
    refine ⟨[], [], rfl, by simp, ?_⟩
    intro p hp
    rw [List.mem_singleton.mp hp]
    exact le_rfl
  | cons p t ih =>
    intro h
    have hfold : pyMin h (p :: t) = pyMin (if p.2 < h.2 then p else h) t := rfl
    obtain ⟨l₁, l₂, hdec, hstrict, hle⟩ := ih (if p.2 < h.2 then p else h)
    rw [hfold]
    by_cases hp : p.2 < h.2
    · rw [if_pos hp] at hdec hstrict hle ⊢
      match l₁, hdec, hstrict with
      | [], hdec, hstrict =>
        rw [List.nil_append] at hdec
        injection hdec with hw hl₂
        refine ⟨[h], l₂, by simp [← hw, ← hl₂], ?_, ?_⟩
        · intro x hx
          rw [List.mem_singleton.mp hx, ← hw]
          exact hp
        · intro x hx
          rcases List.mem_cons.mp hx with hx | hx
          · rw [hx, ← hw]
            exact le_of_lt hp
          · exact hle x hx
      | a :: l₁, hdec, hstrict =>
        have hd := hdec
        rw [List.cons_append] at hd
        injection hd with ha ht
        have hpa : (pyMin p t).2 < p.2 := by
          have hx := hstrict a (by simp)
          rw [← ha] at hx
          exact hx
        refine ⟨h :: a :: l₁, l₂, congrArg (List.cons h) hdec, ?_, ?_⟩
        · intro x hx
          rcases List.mem_cons.mp hx with hx | hx
          · rw [hx]
            exact lt_trans hpa hp
          · exact hstrict x hx
        · intro x hx
          rcases List.mem_cons.mp hx with hx | hx
          · rw [hx]
            exact le_of_lt (lt_trans hpa hp)
          · exact hle x hx
    · rw [if_neg hp] at hdec hstrict hle ⊢
      have hhp : h.2 ≤ p.2 := le_of_not_lt hp
      match l₁, hdec, hstrict with
      | [], hdec, hstrict =>
        rw [List.nil_append] at hdec
        injection hdec with hw hl₂
        refine ⟨[], p :: t, by rw [List.nil_append, ← hw], by simp, ?_⟩
        intro x hx
        rcases List.mem_cons.mp hx with hx | hx
        · rw [hx, ← hw]
        · rcases List.mem_cons.mp hx with hx | hx
          · rw [hx, ← hw]
            exact hhp
          · exact hle x (List.mem_cons_of_mem _ hx)
      | a :: l₁, hdec, hstrict =>
        have hd := hdec
        rw [List.cons_append] at hd
        injection hd with ha ht
        have hwh : (pyMin h t).2 < h.2 := by
          have hx := hstrict a (by simp)
          rw [← ha] at hx
          exact hx
        refine ⟨h :: p :: l₁, l₂, congrArg (fun l => h :: p :: l) ht, ?_, ?_⟩
        · intro x hx
          rcases List.mem_cons.mp hx with hx | hx
          · rw [hx]
            exact hwh
          · rcases List.mem_cons.mp hx with hx | hx
            · rw [hx]
              exact lt_of_lt_of_le hwh hhp
            · exact hstrict x (List.mem_cons_of_mem _ hx)
        · intro x hx
          rcases List.mem_cons.mp hx with hx | hx
          · rw [hx]
            exact le_of_lt hwh
          · rcases List.mem_cons.mp hx with hx | hx
            · rw [hx]
              exact le_of_lt (lt_of_lt_of_le hwh hhp)
            · exact hle x (List.mem_cons_of_mem _ hx)

/-- A decomposition of a mapped list pulls back to a decomposition of the
original list. -/
lemma map_eq_append_cons {α β : Type} (f : α → β) :
    ∀ (l₁ : List β) (l : List α) (y : β) (l₂ : List β),
      l.map f = l₁ ++ y :: l₂ →
      ∃ m₁ x m₂, l = m₁ ++ x :: m₂ ∧ f x = y ∧ m₁.map f = l₁ ∧ m₂.map f = l₂ := by
  intro l₁
  induction l₁ with
  | nil =>
    intro l y l₂ h
    match l with
    | [] => exact absurd h (by simp)
    | x :: l =>
      rw [List.map_cons, List.nil_append] at h
      obtain ⟨hx, hl⟩ := (List.cons.injEq _ _ _ _).mp h
      exact ⟨[], x, l, rfl, hx, rfl, hl⟩
  | cons a l₁ ih =>
    intro l y l₂ h
    match l with
    | [] => exact absurd h (by simp)
    | x :: l =>
      rw [List.map_cons, List.cons_append] at h
      obtain ⟨hx, hl⟩ := (List.cons.injEq _ _ _ _).mp h
      obtain ⟨m₁, x', m₂, hdec, hfx, hm₁, hm₂⟩ := ih l y l₂ hl
      exact ⟨x :: m₁, x', m₂, by rw [hdec]; rfl, hfx, by rw [List.map_cons, hx, hm₁], hm₂⟩

/-- The key built for a combination (app.py line 191). -/
def comboKey (c : String × String) : String := c.1 ++ "_" ++ c.2

/-- The `predictions` association list is the key/probability image of the
combination enumeration. -/
lemma predictions_eq_map (m : Model) :
    predictions m = combos.map (fun c => (comboKey c, probOf m c.1 c.2)) := rfl

/-- Splitting a combination's key at its first underscore recovers the
combination: the three topics contain spaces but no underscore. -/
lemma split_comboKey : ∀ c ∈ combos, split_first_underscore (comboKey c) = some c := by
  decide

/-- Core specification of `select_adaptive_difficulty` on a non-null
model: it returns the first combination, in enumeration order, whose
predicted probability is minimal over all nine combinations. -/
lemma select_some_spec (m : Model) :
    ∃ c l₁ l₂,
      select_adaptive_difficulty (some m) = some c ∧
      combos = l₁ ++ c :: l₂ ∧
      (∀ p ∈ l₁, probOf m c.1 c.2 < probOf m p.1 p.2) ∧
      (∀ p ∈ combos, probOf m c.1 c.2 ≤ probOf m p.1 p.2) := by
  have hsel : select_adaptive_difficulty (some m) =
      split_first_underscore (pyMin (comboKey ("World War I", "Easy"),
        probOf m "World War I" "Easy")
        ((combos.tail).map (fun c => (comboKey c, probOf m c.1 c.2)))).1 := rfl
  obtain ⟨l₁, l₂, hdec, hstrict, hle⟩ :=
    pyMin_spec ((combos.tail).map (fun c => (comboKey c, probOf m c.1 c.2)))
      (comboKey ("World War I", "Easy"), probOf m "World War I" "Easy")
  have hfull : combos.map (fun c => (comboKey c, probOf m c.1 c.2)) =
      (comboKey ("World War I", "Easy"), probOf m "World War I" "Easy") ::
        (combos.tail).map (fun c => (comboKey c, probOf m c.1 c.2)) := rfl
  rw [← hfull] at hdec hle
  obtain ⟨m₁, x, m₂, hcdec, hfx, hm₁, _⟩ := map_eq_append_cons _ l₁ combos _ l₂ hdec
  have hxmem : x ∈ combos := by rw [hcdec]; exact List.mem_append_right _ (by simp)
  refine ⟨x, m₁, m₂, ?_, hcdec, ?_, ?_⟩
  · rw [hsel, ← hfx]
    exact split_comboKey x hxmem
  · intro p hp
    have := hstrict (comboKey p, probOf m p.1 p.2)
      (by rw [← hm₁]; exact List.mem_map_of_mem _ hp)
    rw [← hfx] at this
    exact this
  · intro p hp
    have := hle (comboKey p, probOf m p.1 p.2) (List.mem_map_of_mem _ hp)
    rw [← hfx] at this
    exact this

/-- C2: on every non-null model, the selector enumerates all nine
(topic, difficulty) keys in stable order (topics outer, difficulties
inner) and deterministically returns a combination whose predicted
probability is less-or-equal to that of every combination, the first such
combination in enumeration order in case of ties. -/
theorem c2_min_selection (m : Model) :
    (predictions m).map Prod.fst = combos.map comboKey ∧
    ∃ c l₁ l₂,
      select_adaptive_difficulty (some m) = some c ∧
      combos = l₁ ++ c :: l₂ ∧
      (∀ p ∈ l₁, probOf m c.1 c.2 < probOf m p.1 p.2) ∧
      (∀ p ∈ combos, probOf m c.1 c.2 ≤ probOf m p.1 p.2) :=
  ⟨by rw [predictions_eq_map, List.map_map]; rfl, select_some_spec m⟩

/-- Witness for C2 at the constant model: its inner quantified parts are
discharged at concrete combinations. -/
theorem c2_witness :
    ((predictions constModel).map Prod.fst = combos.map comboKey ∧
      ∃ c l₁ l₂,
        select_adaptive_difficulty (some constModel) = some c ∧
        combos = l₁ ++ c :: l₂ ∧
        (∀ p ∈ l₁, probOf constModel c.1 c.2 < probOf constModel p.1 p.2) ∧
        (∀ p ∈ combos, probOf constModel c.1 c.2 ≤ probOf constModel p.1 p.2)) ∧
    select_adaptive_difficulty (some constModel) = some ("World War I", "Easy") :=
  ⟨c2_min_selection constModel, by decide⟩

/-- A question as held in session state after the handler attaches
`topic`, `difficulty` and `question_id` to the generated JSON
(app.py lines 349-353); a schema-valid generation has
`correct_answer` between 1 and 4. -/
structure Question where
  question : String
  option1 : String
  option2 : String
  option3 : String
  option4 : String
  correct_answer : Nat
  explanation : String
  topic : String
  difficulty : String
  question_id : String
deriving DecidableEq

/-- The per-session Streamlit state (app.py lines 309-318). -/
structure QuizSession where
  score : Nat
  num_questions : Nat
  current_question : Option Question
  answered : Bool
deriving DecidableEq

/-- The freshly initialised session state (app.py lines 309-318). -/
def initSession : QuizSession :=
  { score := 0, num_questions := 0, current_question := none, answered := false }

/-- Whole-app state: session variables plus the persisted log file. -/
structure AppState where
  session : QuizSession
  log : List ResponseRecord
deriving DecidableEq

/-- The question-fetch block (app.py lines 340-353): when no question is
pending and the quiz is not complete, train on the current log, select a
(topic, difficulty), and ask the question provider; on provider failure
the state is unchanged (the round is skipped). -/
def get_question (fit : List ResponseRecord → Model)
    (provider : String → String → Option Question) (s : AppState) : AppState :=
  if s.session.current_question = none ∧ s.session.num_questions < MAX_QUESTIONS then
    match select_adaptive_difficulty (train_adaptive_model fit s.log) with
    | none => s
    | some td =>
      match provider td.1 td.2 with
      | none => s
      | some q =>
        let nq : Question :=
          { q with
            topic := td.1,
            difficulty := td.2,
            question_id := td.1 ++ "_" ++ td.2 ++ "_" ++ toString s.session.num_questions }
        { s with session := { s.session with current_question := some nq } }
  else s

/-- The submit handler (app.py lines 356 and 396-415), reachable only
while a question is displayed (`current_question` set, quiz not
complete). If not yet answered: grade by equality with `correct_answer`,
add 1 to the score iff correct, append exactly one row to the log, and
mark the question answered. If already answered, nothing happens. -/
def submit (k : Nat) (s : AppState) : AppState :=
  match s.session.current_question with
  | none => s
  | some q =>
    if s.session.num_questions < MAX_QUESTIONS then
      if s.session.answered then s
      else
        { session := { s.session with
            score := s.session.score + (if k = q.correct_answer then 1 else 0),
            answered := true },
          log := log_result s.log
            { topic := q.topic, difficulty := q.difficulty,
              answered_correct := if k = q.correct_answer then 1 else 0,
              choice := k, question_id := q.question_id } }
    else s

/-- The next-question handler (app.py lines 441-448), reachable only while
a question is displayed and already answered: advance the question
counter, clear the current question and the answered flag. -/
def next_question (s : AppState) : AppState :=
  match s.session.current_question with
  | none => s
  | some _ =>
    if s.session.num_questions < MAX_QUESTIONS ∧ s.session.answered then
      { s with session := { s.session with
          num_questions := s.session.num_questions + 1,
          current_question := none, answered := false } }
    else s

/-- The take-quiz-again handler (app.py lines 518-522): all session keys
are deleted and re-created at their defaults on rerun; the log file
persists. -/
def resetQuiz (s : AppState) : AppState := { s with session := initSession }

/-- One user-observable transition of the app: a rerun fetching a question
(under an arbitrary provider behavior), a submit click with one of the
four radio choices, a next-question click, or a quiz reset. -/
inductive Step (fit : List ResponseRecord → Model) : AppState → AppState → Prop
  | fetch (provider : String → String → Option Question) (s : AppState) :
      Step fit s (get_question fit provider s)
  | submitStep (k : Nat) (s : AppState) (h1 : 1 ≤ k) (h2 : k ≤ 4) :
      Step fit s (submit k s)
  | nextStep (s : AppState) : Step fit s (next_question s)
  | resetStep (s : AppState) : Step fit s (resetQuiz s)

/-- States reachable from a fresh session over an arbitrary pre-existing
log file. -/
inductive Reachable (fit : List ResponseRecord → Model) : AppState → Prop
  | start (l : List ResponseRecord) : Reachable fit ⟨initSession, l⟩
  | step {s t : AppState} : Reachable fit s → Step fit s t → Reachable fit t

/-- A provider that always returns the same fixed question whose first
option is correct. -/
def providerC : String → String → Option Question :=
  fun _ _ => some ⟨"When did WWI begin?", "1914", "1915", "1916", "1917", 1,
    "It began in 1914.", "", "", ""⟩

/-- The state after fetching the first question of a fresh session. -/
def stateAfterFetch : AppState := get_question constFit providerC ⟨initSession, []⟩

/-- The state after then submitting the correct choice 1. -/
def stateAfterSubmit : AppState := submit 1 stateAfterFetch

/-- Counterexample to C3: after a correct submit and before the
next-question click, the reachable state has `score = 1` while
`num_questions = 0`, violating `score ≤ answeredCount`. -/
theorem c3_counterexample_state :
    Reachable constFit stateAfterSubmit ∧
    stateAfterSubmit.session.score = 1 ∧
    stateAfterSubmit.session.num_questions = 0 ∧
    ¬ stateAfterSubmit.session.score ≤ stateAfterSubmit.session.num_questions := by
  refine ⟨?_, by decide, by decide, by decide⟩
  exact Reachable.step
    (Reachable.step (Reachable.start []) (Step.fetch providerC _))
    (Step.submitStep 1 stateAfterFetch (by decide) (by decide))

/-- The session-counter invariant that actually holds at every reachable
state: the score exceeds the advanced-question count by at most the
pending answered flag, and the count never passes `MAX_QUESTIONS`. -/
def sessionInvariant (s : AppState) : Prop :=
  s.session.score ≤ s.session.num_questions + (if s.session.answered then 1 else 0) ∧
  s.session.num_questions ≤ MAX_QUESTIONS

/-- Fetching a question changes no session counter. -/
lemma get_question_counters (fit : List ResponseRecord → Model)
    (provider : String → String → Option Question) (s : AppState) :
    (get_question fit provider s).session.score = s.session.score ∧
    (get_question fit provider s).session.num_questions = s.session.num_questions ∧
    (get_question fit provider s).session.answered = s.session.answered := by
  unfold get_question
  split
  · split
    · exact ⟨rfl, rfl, rfl⟩
    · split
      · exact ⟨rfl, rfl, rfl⟩
      · exact ⟨rfl, rfl, rfl⟩
  · exact ⟨rfl, rfl, rfl⟩

/-- The amended C3 invariant is preserved by every app transition. -/
lemma sessionInvariant_step (fit : List ResponseRecord → Model)
    {s t : AppState} (hs : sessionInvariant s) (hstep : Step fit s t) :
    sessionInvariant t := by
  obtain ⟨hs1, hs2⟩ := hs
  cases hstep with
  | fetch provider s =>
    obtain ⟨h1, h2, h3⟩ := get_question_counters fit provider s
    exact ⟨by rw [h1, h2, h3]; exact hs1, by rw [h2]; exact hs2⟩
  | submitStep k s hk1 hk2 =>
    unfold submit
    split
    · exact ⟨hs1, hs2⟩
    · rename_i q hq
      by_cases hn : s.session.num_questions < MAX_QUESTIONS
      · rw [if_pos hn]
        by_cases ha : s.session.answered = true
        · rw [if_pos ha]
          exact ⟨hs1, hs2⟩
        · rw [if_neg ha]
          rw [Bool.not_eq_true] at ha
          rw [ha] at hs1
          simp only [Bool.false_eq_true, if_false] at hs1
          refine ⟨?_, hs2⟩
          show s.session.score + (if k = q.correct_answer then 1 else 0) ≤
            s.session.num_questions + (if (true : Bool) = true then 1 else 0)
          rw [if_pos rfl]
          by_cases hc : k = q.correct_answer
          · rw [if_pos hc]
            omega
          · rw [if_neg hc]
            omega
      · rw [if_neg hn]
        exact ⟨hs1, hs2⟩
  | nextStep s =>
    unfold next_question
    split
    · exact ⟨hs1, hs2⟩
    · by_cases hcond : s.session.num_questions < MAX_QUESTIONS ∧ s.session.answered = true
      · rw [if_pos hcond]
        obtain ⟨hn, ha⟩ := hcond
        rw [ha] at hs1
        rw [if_pos rfl] at hs1
        refine ⟨?_, ?_⟩
        · show s.session.score ≤
            s.session.num_questions + 1 + (if (false : Bool) = true then 1 else 0)
          rw [if_neg Bool.false_ne_true]
          omega
        · show s.session.num_questions + 1 ≤ MAX_QUESTIONS
          omega
      · rw [if_neg hcond]
        exact ⟨hs1, hs2⟩
  | resetStep s =>
    exact ⟨by simp [resetQuiz, initSession], by simp [resetQuiz, initSession, MAX_QUESTIONS]⟩

/-- Amended C3: at every reachable state,
`score ≤ answeredCount + (answered flag)` and
`answeredCount ≤ MAX_QUESTIONS`; the original bound `score ≤ answeredCount`
holds whenever no graded answer is pending (`answered = false`). -/
theorem c3_invariant_amended (fit : List ResponseRecord → Model)
    (s : AppState) (h : Reachable fit s) :
    sessionInvariant s ∧
    (s.session.answered = false → s.session.score ≤ s.session.num_questions) := by
  have hinv : sessionInvariant s := by
    induction h with
    | start l => exact ⟨by simp [initSession], by simp [initSession, MAX_QUESTIONS]⟩
    | step hr hstep ih => exact sessionInvariant_step fit ih hstep
  refine ⟨hinv, ?_⟩
  intro ha
  have h1 := hinv.1
  rw [ha] at h1
  simpa using h1

/-- Witness for amended C3 at the freshly started state. -/
theorem c3_witness :
    sessionInvariant ⟨initSession, []⟩ ∧
    ((⟨initSession, []⟩ : AppState).session.answered = false →
      (⟨initSession, []⟩ : AppState).session.score ≤
        (⟨initSession, []⟩ : AppState).session.num_questions) :=
  c3_invariant_amended constFit ⟨initSession, []⟩ (Reachable.start [])

/-- C4: when the current question is already answered, a second submit
click changes nothing: session (score, counters, flags, question) and the
log are left exactly as they are, with no re-grading and no second log
append. -/
theorem c4_submit_idempotent (k : Nat) (s : AppState)
    (h : s.session.answered = true) : submit k s = s := by
  unfold submit
  split
  · rfl
  · simp [h]

/-- A concrete already-answered state. -/
def answeredState : AppState :=
  { session := { score := 1, num_questions := 0,
                 current_question := some ⟨"When did WWI begin?", "1914", "1915", "1916",
                   "1917", 1, "It began in 1914.", "World War I", "Easy", "World War I_Easy_0"⟩,
                 answered := true },
    log := [⟨"World War I", "Easy", 1, 1, "World War I_Easy_0"⟩] }

/-- Witness for C4 at a concrete answered state. -/
theorem c4_witness : submit 2 answeredState = answeredState :=
  c4_submit_idempotent 2 answeredState rfl

/-- C5: the first submit on a pending question grades by equality with
`correct_answer`, increments the score by exactly 1 iff the choice is the
correct index, appends exactly one record built from the current question
and the verdict, sets the answered flag, and leaves the question counter
unchanged. -/
theorem c5_submit_grades (s : AppState) (q : Question) (k : Nat)
    (hq : s.session.current_question = some q)
    (hn : s.session.num_questions < MAX_QUESTIONS)
    (ha : s.session.answered = false) :
    ((submit k s).session.score = s.session.score + 1 ↔ k = q.correct_answer) ∧
    (k ≠ q.correct_answer → (submit k s).session.score = s.session.score) ∧
    (submit k s).log = s.log ++
      [⟨q.topic, q.difficulty, if k = q.correct_answer then 1 else 0, k, q.question_id⟩] ∧
    (submit k s).session.answered = true ∧
    (submit k s).session.num_questions = s.session.num_questions := by
  have hsub : submit k s =
      { session := { s.session with
          score := s.session.score + (if k = q.correct_answer then 1 else 0),
          answered := true },
        log := log_result s.log
          { topic := q.topic, difficulty := q.difficulty,
            answered_correct := if k = q.correct_answer then 1 else 0,
            choice := k, question_id := q.question_id } } := by
    unfold submit
    split
    · rename_i hnone
      rw [hnone] at hq
      exact Option.noConfusion hq
    · rename_i q2 hq2
      rw [hq] at hq2
      injection hq2 with hqq
      subst hqq
      rw [if_pos hn, if_neg (by rw [ha]; exact Bool.false_ne_true)]
  rw [hsub]
  refine ⟨?_, ?_, rfl, rfl, rfl⟩
  · show s.session.score + (if k = q.correct_answer then 1 else 0) = s.session.score + 1 ↔
      k = q.correct_answer
    by_cases hc : k = q.correct_answer
    · rw [if_pos hc]
      exact ⟨fun _ => hc, fun _ => rfl⟩
    · rw [if_neg hc]
      constructor
      · intro hcontr
        omega
      · intro hcontr
        exact absurd hcontr hc
  · intro hc
    show s.session.score + (if k = q.correct_answer then 1 else 0) = s.session.score
    rw [if_neg hc]
    omega

/-- A concrete pending state whose question has `correct_answer = 3`. -/
def pendingState3 : AppState :=
  { session := { score := 0, num_questions := 0,
                 current_question := some ⟨"Which year did WWII end?", "1943", "1944", "1945",
                   "1946", 3, "It ended in 1945.", "World War II", "Hard", "World War II_Hard_0"⟩,
                 answered := false },
    log := [] }

/-- Witness for C5, the spec scenario: submitting choice 3 on a question
with correct index 3 yields a record with `answered_correct = 1` and a
score increment of exactly 1. -/
theorem c5_witness :
    ((submit 3 pendingState3).session.score = pendingState3.session.score + 1 ↔ 3 = 3) ∧
    (submit 3 pendingState3).log =
      [⟨"World War II", "Hard", 1, 3, "World War II_Hard_0"⟩] ∧
    (submit 3 pendingState3).session.answered = true := by
  have h := c5_submit_grades pendingState3
    ⟨"Which year did WWII end?", "1943", "1944", "1945", "1946", 3, "It ended in 1945.",
      "World War II", "Hard", "World War II_Hard_0"⟩ 3 rfl (by decide) rfl
  exact ⟨h.1, by rw [h.2.2.1]; rfl, h.2.2.2.1⟩

/-- A concrete pending state whose question has `correct_answer = 2`. -/
def pendingState2 : AppState :=
  { session := { score := 0, num_questions := 0,
                 current_question := some ⟨"Which country was not in the Axis?", "Germany",
                   "France", "Italy", "Japan", 2, "France was invaded.", "World War II",
                   "Medium", "World War II_Medium_0"⟩,
                 answered := false },
    log := [] }

/-- Counterexample to C8: submitting the out-of-range choice index 5 is
not rejected and mutates state: it is graded (as incorrect), a record with
`choice = 5` is appended to the log, and the answered flag is set. The
handler performs no range validation at all. -/
theorem c8_counterexample_no_validation :
    (submit 5 pendingState2).log =
      [⟨"World War II", "Medium", 0, 5, "World War II_Medium_0"⟩] ∧
    (submit 5 pendingState2).session.answered = true ∧
    ¬ submit 5 pendingState2 = pendingState2 := by
  refine ⟨by decide, by decide, by decide⟩

/-- Amended C8: the submit handler has no choice-index validation; the
radio widget is what restricts live choices to 1-4. An out-of-range index
reaching the grading logic of a schema-valid question is graded as
incorrect (it cannot equal a `correct_answer` in 1-4) and logged with the
out-of-range `choice` value, rather than rejected before mutation. -/
theorem c8_out_of_range_amended (s : AppState) (q : Question) (k : Nat)
    (hq : s.session.current_question = some q)
    (hn : s.session.num_questions < MAX_QUESTIONS)
    (ha : s.session.answered = false)
    (hc1 : 1 ≤ q.correct_answer) (hc2 : q.correct_answer ≤ 4)
    (hk : k = 0 ∨ 5 ≤ k) :
    (submit k s).session.score = s.session.score ∧
    (submit k s).log = s.log ++ [⟨q.topic, q.difficulty, 0, k, q.question_id⟩] ∧
    (submit k s).session.answered = true := by
  have hne : k ≠ q.correct_answer := by omega
  have h := c5_submit_grades s q k hq hn ha
  refine ⟨h.2.1 hne, ?_, h.2.2.2.1⟩
  have h3 := h.2.2.1
  rw [if_neg hne] at h3
  exact h3

/-- Witness for amended C8 at choice index 5 against a question with
correct index 2. -/
theorem c8_witness :
    (submit 5 pendingState2).session.score = pendingState2.session.score ∧
    (submit 5 pendingState2).log = pendingState2.log ++
      [⟨"World War II", "Medium", 0, 5, "World War II_Medium_0"⟩] ∧
    (submit 5 pendingState2).session.answered = true :=
  c8_out_of_range_amended pendingState2
    ⟨"Which country was not in the Axis?", "Germany", "France", "Italy", "Japan", 2,
      "France was invaded.", "World War II", "Medium", "World War II_Medium_0"⟩ 5
    rfl (by decide) rfl (by decide) (by decide) (Or.inr (by decide))

/-- Amended C6: appending a record and reading the log back yields exactly
the old sequence with the new record in the last position; with all
previously persisted records unchanged in their original order, the count
of the appended record grows by exactly one, so it occurs exactly once
whenever it was not already present (duplicates of an equal earlier record
are possible, since identity is insertion order, not a key). The only log
operations are `append` and `loadAll`: nothing updates or deletes. -/
theorem c6_append_roundtrip (l : List ResponseRecord) (r : ResponseRecord) :
    loadAll (log_result l r) = l ++ [r] ∧
    (loadAll (log_result l r)).getLast? = some r ∧
    (loadAll (log_result l r)).count r = l.count r + 1 ∧
    (r ∉ l → (loadAll (log_result l r)).count r = 1) := by
  refine ⟨rfl, List.getLast?_concat l, ?_, ?_⟩
  · show (l ++ [r]).count r = l.count r + 1
    rw [List.count_append]
    simp
  · intro hr
    show (l ++ [r]).count r = 1
    rw [List.count_append, List.count_eq_zero.mpr hr]
    simp

/-- A small concrete record. -/
def rSmall : ResponseRecord := ⟨"World War I", "Easy", 1, 1, "q0"⟩

/-- Counterexample to C6 as stated: appending a record equal to one
already in the log yields a sequence containing it twice, not exactly
once. -/
theorem c6_counterexample_duplicate :
    ¬ (loadAll (log_result [rSmall] rSmall)).count rSmall = 1 := by
  decide

/-- Witness for amended C6 on the empty log. -/
theorem c6_witness :
    loadAll (log_result [] rSmall) = [] ++ [rSmall] ∧
    (loadAll (log_result [] rSmall)).getLast? = some rSmall ∧
    (loadAll (log_result [] rSmall)).count rSmall = List.count rSmall [] + 1 ∧
    (rSmall ∉ ([] : List ResponseRecord) →
      (loadAll (log_result [] rSmall)).count rSmall = 1) :=
  c6_append_roundtrip [] rSmall

/-- The (topic, difficulty) combinations that occur in a log, i.e. the
training rows the encoder has seen. -/
def seenCombos (l : List ResponseRecord) : List (String × String) :=
  l.map (fun r => (r.topic, r.difficulty))

/-- Modelled from sklearn semantics for the pipeline built at app.py lines
167-170 and queried at lines 188-190: `OneHotEncoder` is constructed with
`handle_unknown="ignore"`, so `enc.transform` on a sample with unseen
categories returns an encoding with all-zero columns for them instead of
raising, and `model.predict_proba` is total on any encoding; hence the
fitted pipeline yields a value (not an exception) for every
(topic, difficulty) sample. -/
def toTotalModel (f : String → String → ℚ) : Model := fun t d => some (f t d)

/-- A concrete total fit result: the pipeline predicting 7/10 everywhere
(as a logistic model with this intercept would on the all-zero encoding of
an unseen combination). -/
def fitConst : List ResponseRecord → Model := fun _ => toTotalModel (fun _ _ => 7 / 10)

/-- Counterexample to C7: on the spec's own three-record mixed log, the
combination (World Wars General, Hard) was never seen in training, the
model trains non-null, and the probability used for that combination is
the model's prediction 7/10, not the neutral 0.5: with
`handle_unknown="ignore"` the encoder never raises on unseen
combinations, so the except-branch assigning 0.5 is not taken. -/
theorem c7_counterexample_unseen :
    ("World Wars General", "Hard") ∉ seenCombos L0 ∧
    train_adaptive_model fitConst L0 = some (fitConst L0) ∧
    probOf (fitConst L0) "World Wars General" "Hard" = 7 / 10 ∧
    probOf (fitConst L0) "World Wars General" "Hard" ≠ 1 / 2 := by
  refine ⟨by decide, ?_, rfl, ?_⟩
  · unfold train_adaptive_model
    rw [if_neg (by decide)]
  · show (7 : ℚ) / 10 ≠ 1 / 2
    norm_num

/-- Amended C7: the neutral probability 0.5 is used for a combination
exactly when computing its prediction raises an exception; a model whose
prediction is total (as the `handle_unknown="ignore"` encoder plus
`predict_proba` is) never receives the 0.5 fallback — every combination,
seen or unseen, gets the model's predicted value. -/
theorem c7_fallback_amended (m : Model) (t d : String) :
    (m t d = none → probOf m t d = 1 / 2) ∧
    (∀ p : ℚ, m t d = some p → probOf m t d = p) ∧
    (∀ f : String → String → ℚ, probOf (toTotalModel f) t d = f t d) := by
  refine ⟨?_, ?_, fun f => rfl⟩
  · intro h
    unfold probOf
    rw [h]
    rfl
  · intro p h
    unfold probOf
    rw [h]
    rfl

/-- Witness for amended C7: a raising prediction gets 0.5, a total
prediction gets its own value. -/
theorem c7_witness :
    probOf (fun _ _ => none) "World War I" "Easy" = 1 / 2 ∧
    probOf (toTotalModel (fun _ _ => 3)) "World War I" "Easy" = 3 :=
  ⟨(c7_fallback_amended (fun _ _ => none) "World War I" "Easy").1 rfl,
   (c7_fallback_amended (toTotalModel (fun _ _ => 3)) "World War I" "Easy").2.2
     (fun _ _ => 3)⟩

/-- A fitting step that raises (e.g. a numerical failure inside
`model.fit`). -/
def fitRaises : List ResponseRecord → Except String Model :=
  fun _ => Except.error "ConvergenceError"

/-- Counterexample to C9: on a log passing the data guard, a raising fit
propagates out of `train_adaptive_model` (which has no `try`/`except`)
instead of degrading to the null model. -/
theorem c9_counterexample_fit_error :
    train_adaptive_modelE fitRaises L0 = Except.error "ConvergenceError" ∧
    train_adaptive_modelE fitRaises L0 ≠ Except.ok none := by
  have h : train_adaptive_modelE fitRaises L0 = Except.error "ConvergenceError" := by
    unfold train_adaptive_modelE
    rw [if_neg (by decide)]
    rfl
  refine ⟨h, ?_⟩
  rw [h]
  intro hcontr
  exact Except.noConfusion hcontr

/-- Amended C9: only insufficient data is converted to a null model (with
selection then falling back to the fixed default); a raising fit
propagates to the caller unchanged, since the function has no exception
handling. (In practice sklearn non-convergence emits a warning and still
returns a model, so the raising branch is not exercised.) -/
theorem c9_train_errors_amended (fitE : List ResponseRecord → Except String Model)
    (l : List ResponseRecord) (e : String) :
    ((l.length < 3 ∨ nuniqueCorrect l < 2) →
      train_adaptive_modelE fitE l = Except.ok none) ∧
    (¬(l.length < 3 ∨ nuniqueCorrect l < 2) → fitE l = Except.error e →
      train_adaptive_modelE fitE l = Except.error e) ∧
    select_adaptive_difficulty none = some ("World War I", "Easy") := by
  refine ⟨?_, ?_, rfl⟩
  · intro h
    unfold train_adaptive_modelE
    rw [if_pos h]
  · intro h hf
    unfold train_adaptive_modelE
    rw [if_neg h, hf]
    rfl

/-- Witness for amended C9: the empty log degrades to the null model, a
raising fit on a sufficient log propagates its error. -/
theorem c9_witness :
    train_adaptive_modelE fitRaises [] = Except.ok none ∧
    train_adaptive_modelE fitRaises L0 = Except.error "ConvergenceError" :=
  ⟨(c9_train_errors_amended fitRaises [] "ConvergenceError").1 (Or.inl (by decide)),
   (c9_train_errors_amended fitRaises L0 "ConvergenceError").2.1 (by decide) rfl⟩

/-- C10: splitting the key `"{topic}_{difficulty}"` at its first
underscore recovers exactly the original topic and difficulty for all
nine combinations (topics contain spaces but never underscores), so on
any non-null model the selector returns a member of the fixed nine
combinations, never a malformed pair. -/
theorem c10_key_roundtrip :
    (∀ c ∈ combos, split_first_underscore (c.1 ++ "_" ++ c.2) = some c) ∧
    ∀ m : Model, ∃ c, select_adaptive_difficulty (some m) = some c ∧ c ∈ combos := by
  refine ⟨split_comboKey, ?_⟩
  intro m
  obtain ⟨c, l₁, l₂, hsel, hdec, _, _⟩ := select_some_spec m
  refine ⟨c, hsel, ?_⟩
  rw [hdec]
  exact List.mem_append_right _ (by simp)

/-- Witness for C10 at a concrete combination and the constant model. -/
theorem c10_witness :
    split_first_underscore ("World Wars General" ++ "_" ++ "Hard") =
      some ("World Wars General", "Hard") ∧
    ∃ c, select_adaptive_difficulty (some constModel) = some c ∧ c ∈ combos :=
  ⟨c10_key_roundtrip.1 ("World Wars General", "Hard") (by decide),
   c10_key_roundtrip.2 constModel⟩
